import Mathlib

/-!
# Verification of the filerename-utility core (src/main.py, src/suggest_file_names.py)

Shallow embedding of the uniqueness-resolution algorithm (`unique_suggestion`),
the batch suggestion loop (`process_files`), regeneration
(`regenerate_filename`), the rename applier (`rename_files`), the CLI dry-run
loop, and the slug function (`slugify`).

Modelling conventions:
* A file path `filepath` is described by a `FileCtx`: its extension
  (`os.path.splitext(filepath)[1]`), the base name of the file without the
  extension (`stem`, so the basename of `filepath` is `stem ++ ext`), and the
  finite set of file names (basenames, extension included) currently present
  in its directory (`dirEntries`).
* `os.path.exists(os.path.join(dir_name, name + ext))` is modelled as
  membership of `name ++ ext` in `dirEntries`.
* `os.path.abspath(os.path.join(dir_name, f1)) == os.path.abspath(filepath)`
  for a file in the same directory reduces to comparing basenames, i.e.
  `f1 = stem ++ ext`; by right-cancellation of string append this is
  `name = stem` when `f1 = name ++ ext`.  (The spec itself leaves symlink and
  case-insensitivity aliasing unspecified.)
* The suggestion source (`suggest_new_filename`) is an external collaborator:
  it is modelled as a function from the attempt index to the value of
  `result.get("suggested_filename")`, i.e. `Nat → Option String`; Python's
  falsiness of `None` and `""` in `result.get(...) or "file"` is `orFile`.
* The unbounded `while True` fallback loop is embedded as a fuelled loop
  `fallbackLoop` run with provably sufficient fuel `loopFuel` (the loop is
  proved to succeed strictly within that fuel, so the fuel-exhaustion branch
  is unreachable: this is the termination content of the source loop).
-/

/-- Context of one file path: `stem`/`ext` from `os.path.splitext`, plus the
finite set of entries on disk in its directory (`dirEntries`, basenames with
extension). -/
structure FileCtx where
  stem : String
  ext : String
  dirEntries : Finset String
deriving DecidableEq

/-- Model of `result.get("suggested_filename") or "file"`: Python `or` replaces both
`None` and the empty string by the fallback literal. -/
def orFile : Option String → String
  | none => "file"
  | some s => if s = "" then "file" else s

/-- Model of `os.path.exists(candidate) and os.path.abspath(candidate) != os.path.abspath(filepath)`
for `candidate = os.path.join(dir_name, name + ext)` (see module docstring for
the reduction of the abspath comparison to `name = stem`). -/
def existsElsewhere (ctx : FileCtx) (name : String) : Bool :=
  decide (name ++ ctx.ext ∈ ctx.dirEntries) && !(decide (name = ctx.stem))

/-- The test `name not in existing_names and not exists_elsewhere`: the acceptance test
applied to every candidate in `unique_suggestion`. -/
def okName (ctx : FileCtx) (existing_names : Finset String) (name : String) : Bool :=
  !(decide (name ∈ existing_names)) && !(existsElsewhere ctx name)

/-- The retry loop `for _ in range(attempts)` of `unique_suggestion`
(src/main.py lines 23-30): attempt `i` draws `orFile (source i)`; an accepted
candidate is returned (`Sum.inl`), otherwise `last_name` is updated and, when
attempts are exhausted, returned (`Sum.inr`).  The initial `last_name` is
`"file"` (line 22). -/
def attemptPhase (ctx : FileCtx) (source : Nat → Option String)
    (existing_names : Finset String) : Nat → Nat → String → Sum String String
  | _, 0, lastName => Sum.inr lastName
  | i, n + 1, _ =>
    let name := orFile (source i)
    if okName ctx existing_names name then Sum.inl name
    else attemptPhase ctx source existing_names (i + 1) n name

/-- The `k`-th candidate tried by the numeric-suffix fallback loop
(src/main.py lines 32-41): `base` first, then `base-1`, `base-2`, ...
(`f"{base}-{counter}"` uses the decimal representation, i.e. `toString`). -/
def fallbackName (base : String) (k : Nat) : String :=
  if k = 0 then base else base ++ "-" ++ toString k

/-- The `while True` fallback loop of `unique_suggestion`, fuelled.  `k` is the
index of the candidate about to be tested; the fuel-exhaustion branch returns
the current candidate and is proved unreachable for the fuel used below. -/
def fallbackLoop (ctx : FileCtx) (existing_names : Finset String) (base : String) :
    Nat → Nat → String
  | 0, k => fallbackName base k
  | fuel + 1, k =>
    let name := fallbackName base k
    if okName ctx existing_names name then name
    else fallbackLoop ctx existing_names base fuel (k + 1)

/-- Fuel sufficient for `fallbackLoop`: one more than the number of claimed
names plus the number of on-disk entries in the directory. -/
def loopFuel (ctx : FileCtx) (existing_names : Finset String) : Nat :=
  existing_names.card + ctx.dirEntries.card + 1

/-- Embedding of `unique_suggestion(filepath, existing_names, method, attempts)`
(src/main.py lines 12-42): try the suggestion source up to `attempts` times,
then disambiguate the last candidate with numeric suffixes. -/
def unique_suggestion (ctx : FileCtx) (source : Nat → Option String)
    (existing_names : Finset String) (attempts : Nat) : String :=
  match attemptPhase ctx source existing_names 0 attempts "file" with
  | Sum.inl name => name
  | Sum.inr lastName =>
      fallbackLoop ctx existing_names lastName (loopFuel ctx existing_names) 0

/-- The suggestion pass of `FileRenamerUI.process_files` (src/main.py lines
98-105), restricted to its data content: each file is resolved against the set
of values already assigned (`existing = set(self.file_data.values())`) and its
finalized name joins that set before the next file is processed.  The CLI loop
(lines 196-199) accumulates the same way.  Returns the assigned names in input
order. -/
def process_files : List (FileCtx × (Nat → Option String)) → Finset String → List String
  | [], _ => []
  | (ctx, src) :: rest, claimed =>
    let name := unique_suggestion ctx src claimed 3
    name :: process_files rest (insert name claimed)

example : orFile none = "file" := by rfl
example : orFile (some "") = "file" := by rfl
example : orFile (some "x") = "x" := by rfl
example : fallbackName "x" 0 = "x" := by rfl
example : fallbackName "x" 1 = "x-1" := by rfl
example : fallbackName "x" 12 = "x-12" := by rfl

/-! ### Injectivity of the decimal representation used by `f"{base}-{counter}"` -/

/-- Decimal digit list of `n`, most significant first: analysis-side recursion
matching what core `Nat.toDigits 10` computes. -/
def decDigits (n : Nat) : List Char :=
  if n < 10 then [Nat.digitChar n]
  else decDigits (n / 10) ++ [Nat.digitChar (n % 10)]
termination_by n
decreasing_by exact Nat.div_lt_self (by omega) (by omega)

/-- Numeric value of a digit character (inverse of `Nat.digitChar` below 10). -/
def dVal (c : Char) : Nat := c.toNat - 48

/-- Value of a most-significant-first digit-character list. -/
def valOfDigits (l : List Char) : Nat := l.foldl (fun a c => 10 * a + dVal c) 0

theorem dVal_digitChar : ∀ d, d < 10 → dVal (Nat.digitChar d) = d := by decide

theorem valOfDigits_append_last (l : List Char) (c : Char) :
    valOfDigits (l ++ [c]) = 10 * valOfDigits l + dVal c := by
  simp [valOfDigits, List.foldl_append]

theorem valOfDigits_decDigits (n : Nat) : valOfDigits (decDigits n) = n := by
  induction n using Nat.strong_induction_on with
  | _ n ih =>
    rw [decDigits]
    by_cases h : n < 10
    · simp only [h, if_true]
      simp [valOfDigits, dVal_digitChar n h]
    · simp only [h, if_false]
      rw [valOfDigits_append_last, ih (n / 10) (Nat.div_lt_self (by omega) (by omega)),
        dVal_digitChar (n % 10) (by omega)]
      omega

theorem decDigits_injective : Function.Injective decDigits := by
  intro m n h
  have := congrArg valOfDigits h
  rwa [valOfDigits_decDigits, valOfDigits_decDigits] at this

theorem toDigitsCore_eq_decDigits :
    ∀ (fuel n : Nat) (ds : List Char), n < fuel →
      Nat.toDigitsCore 10 fuel n ds = decDigits n ++ ds := by
  intro fuel
  induction fuel with
  | zero => intro n ds h; omega
  | succ f ih =>
    intro n ds h
    simp only [Nat.toDigitsCore]
    by_cases h0 : n / 10 = 0
    · have h10 : n < 10 := by omega
      rw [if_pos h0, decDigits]
      simp [h10, Nat.mod_eq_of_lt h10]
    · have hdec : decDigits n = decDigits (n / 10) ++ [Nat.digitChar (n % 10)] := by
        rw [decDigits, if_neg (by omega : ¬ n < 10)]
      rw [if_neg h0, ih (n / 10) _ (by omega), hdec, List.append_assoc]
      rfl

theorem natRepr_injective : Function.Injective Nat.repr := by
  intro m n h
  apply decDigits_injective
  have hm := toDigitsCore_eq_decDigits (m + 1) m [] (by omega)
  have hn := toDigitsCore_eq_decDigits (n + 1) n [] (by omega)
  have hdm : Nat.repr m = (decDigits m).asString := by
    rw [Nat.repr, Nat.toDigits, hm, List.append_nil]
  have hdn : Nat.repr n = (decDigits n).asString := by
    rw [Nat.repr, Nat.toDigits, hn, List.append_nil]
  rw [hdm, hdn] at h
  simpa [List.asString, String.ext_iff] using h

theorem toString_nat_eq_repr (n : Nat) : toString n = Nat.repr n := rfl

/-! ### The fallback candidates `base`, `base-1`, `base-2`, ... are distinct -/

theorem fallbackName_injective (base : String) : Function.Injective (fallbackName base) := by
  intro j k h
  unfold fallbackName at h
  by_cases hj : j = 0 <;> by_cases hk : k = 0
  · omega
  · rw [if_pos hj, if_neg hk] at h
    have := congrArg String.length h
    rw [String.length_append, String.length_append] at this
    have hdash : ("-" : String).length = 1 := rfl
    omega
  · rw [if_neg hj, if_pos hk] at h
    have := congrArg String.length h
    rw [String.length_append, String.length_append] at this
    have hdash : ("-" : String).length = 1 := rfl
    omega
  · rw [if_neg hj, if_neg hk] at h
    have hdata := congrArg String.data h
    simp only [String.data_append] at hdata
    have hrep : (toString j).data = (toString k).data := by simpa using hdata
    have : toString j = toString k := String.ext hrep
    rw [toString_nat_eq_repr, toString_nat_eq_repr] at this
    exact natRepr_injective this

/-! ### The fallback loop finds a clean name within `loopFuel` steps -/

/-- Pigeonhole: among the first `loopFuel` fallback candidates, at least one is
neither claimed nor colliding on disk (the candidates are pairwise distinct,
and each bad candidate consumes either a claimed name or a directory entry). -/
theorem fallback_succeeds (ctx : FileCtx) (existing_names : Finset String) (base : String) :
    ∃ j, j < loopFuel ctx existing_names ∧
      okName ctx existing_names (fallbackName base j) = true := by
  by_contra hcon
  push_neg at hcon
  have hbad : ∀ j, j < loopFuel ctx existing_names →
      fallbackName base j ∈ existing_names ∨
        fallbackName base j ++ ctx.ext ∈ ctx.dirEntries := by
    intro j hj
    have h := hcon j hj
    by_cases hmem : fallbackName base j ∈ existing_names
    · exact Or.inl hmem
    · right
      by_contra hd
      exact h (by simp [okName, existsElsewhere, hmem, hd])
  set s : Finset Nat := Finset.range (loopFuel ctx existing_names) with hs
  set t : Finset (Sum String String) :=
    existing_names.image Sum.inl ∪ ctx.dirEntries.image Sum.inr with ht
  have hcard : t.card < s.card := by
    have h1 : t.card ≤ existing_names.card + ctx.dirEntries.card := by
      calc t.card ≤ (existing_names.image Sum.inl).card + (ctx.dirEntries.image Sum.inr).card :=
            Finset.card_union_le _ _
        _ ≤ existing_names.card + ctx.dirEntries.card := by
            exact Nat.add_le_add (Finset.card_image_le) (Finset.card_image_le)
    have h2 : s.card = existing_names.card + ctx.dirEntries.card + 1 := by
      rw [hs, Finset.card_range, loopFuel]
    omega
  have hmaps : ∀ j ∈ s, (fun j => if fallbackName base j ∈ existing_names then
      Sum.inl (α := String) (β := String) (fallbackName base j)
      else Sum.inr (fallbackName base j ++ ctx.ext)) j ∈ t := by
    intro j hj
    rw [hs, Finset.mem_range] at hj
    by_cases hmem : fallbackName base j ∈ existing_names
    · simp only [hmem, if_pos]
      exact Finset.mem_union_left _ (Finset.mem_image_of_mem _ hmem)
    · simp only [hmem, if_neg, if_false]
      rcases hbad j hj with hb | hb
      · exact absurd hb hmem
      · exact Finset.mem_union_right _ (Finset.mem_image_of_mem _ hb)
  obtain ⟨x, hx, y, hy, hxy, hfeq⟩ :=
    Finset.exists_ne_map_eq_of_card_lt_of_maps_to hcard hmaps
  apply hxy
  by_cases hmx : fallbackName base x ∈ existing_names <;>
    by_cases hmy : fallbackName base y ∈ existing_names <;>
      simp only [hmx, hmy, if_pos, if_neg, if_false, if_true] at hfeq
  · exact fallbackName_injective base (Sum.inl.inj hfeq)
  · exact absurd hfeq (by simp)
  · exact absurd hfeq (by simp)
  · have hdata := congrArg String.data (Sum.inr.inj hfeq)
    simp only [String.data_append] at hdata
    exact fallbackName_injective base
      (String.ext (List.append_cancel_right hdata))

/-- Characterization of the fuelled fallback loop: given a good candidate
within the fuel, the loop returns the FIRST good candidate at or after the
start index (deterministic order `base`, `base-1`, `base-2`, ...). -/
theorem fallbackLoop_spec (ctx : FileCtx) (existing_names : Finset String) (base : String) :
    ∀ (fuel k j : Nat), j < fuel →
      okName ctx existing_names (fallbackName base (k + j)) = true →
      okName ctx existing_names (fallbackLoop ctx existing_names base fuel k) = true ∧
      ∃ m, fallbackLoop ctx existing_names base fuel k = fallbackName base (k + m) ∧
        ∀ i, i < m → okName ctx existing_names (fallbackName base (k + i)) = false := by
  intro fuel
  induction fuel with
  | zero => intro k j hj _; omega
  | succ f ih =>
    intro k j hj hok
    by_cases hk : okName ctx existing_names (fallbackName base k) = true
    · refine ⟨by simp [fallbackLoop, hk], 0, by simp [fallbackLoop, hk], by omega⟩
    · have hk0 : okName ctx existing_names (fallbackName base k) = false := by
        simpa using hk
      have hj0 : j ≠ 0 := by
        intro h0
        rw [h0, Nat.add_zero] at hok
        rw [hok] at hk0
        cases hk0
      have hrec := ih (k + 1) (j - 1) (by omega)
        (by have : k + 1 + (j - 1) = k + j := by omega
            rw [this]; exact hok)
      obtain ⟨hok2, m, hm, hfirst⟩ := hrec
      have hstep : fallbackLoop ctx existing_names base (f + 1) k =
          fallbackLoop ctx existing_names base f (k + 1) := by
        simp [fallbackLoop, hk0]
      refine ⟨by rw [hstep]; exact hok2, m + 1, ?_, ?_⟩
      · rw [hstep, hm]
        congr 1
        omega
      · intro i hi
        by_cases hi0 : i = 0
        · rw [hi0, Nat.add_zero]; exact hk0
        · have : k + i = k + 1 + (i - 1) := by omega
          rw [this]
          exact hfirst (i - 1) (by omega)

/-- The fallback phase of `unique_suggestion` (run with fuel `loopFuel`)
returns the first clean candidate in the order `base`, `base-1`, `base-2`, ...,
and that candidate passes both non-collision checks. -/
theorem fallback_result_spec (ctx : FileCtx) (existing_names : Finset String) (base : String) :
    okName ctx existing_names
      (fallbackLoop ctx existing_names base (loopFuel ctx existing_names) 0) = true ∧
    ∃ m, fallbackLoop ctx existing_names base (loopFuel ctx existing_names) 0 =
        fallbackName base m ∧
      ∀ i, i < m → okName ctx existing_names (fallbackName base i) = false := by
  obtain ⟨j, hj, hok⟩ := fallback_succeeds ctx existing_names base
  have := fallbackLoop_spec ctx existing_names base (loopFuel ctx existing_names) 0 j hj
    (by simpa using hok)
  simpa using this

/-- If the retry phase returns early (`Sum.inl`), the returned candidate passes
both checks and was produced by some attempt. -/
theorem attemptPhase_inl_spec (ctx : FileCtx) (source : Nat → Option String)
    (existing_names : Finset String) :
    ∀ (n i : Nat) (lastName name : String),
      attemptPhase ctx source existing_names i n lastName = Sum.inl name →
      okName ctx existing_names name = true ∧
        ∃ j, i ≤ j ∧ j < i + n ∧ name = orFile (source j) := by
  intro n
  induction n with
  | zero => intro i lastName name h; cases h
  | succ m ih =>
    intro i lastName name h
    rw [attemptPhase] at h
    by_cases hok : okName ctx existing_names (orFile (source i)) = true
    · simp only [hok, if_pos, if_true] at h
      cases h
      exact ⟨hok, i, by omega, by omega, rfl⟩
    · rw [if_neg (by simpa using hok)] at h
      obtain ⟨h1, j, hj1, hj2, hj3⟩ := ih (i + 1) (orFile (source i)) name h
      exact ⟨h1, j, by omega, by omega, hj3⟩

/-- Every name returned by `unique_suggestion` passes both non-collision
checks: it is not in `existing_names`, and no entry other than the file itself
occupies `directory/name+ext`. -/
theorem unique_suggestion_ok (ctx : FileCtx) (source : Nat → Option String)
    (existing_names : Finset String) (attempts : Nat) :
    okName ctx existing_names (unique_suggestion ctx source existing_names attempts) = true := by
  unfold unique_suggestion
  cases h : attemptPhase ctx source existing_names 0 attempts "file" with
  | inl name =>
    exact (attemptPhase_inl_spec ctx source existing_names attempts 0 "file" name h).1
  | inr lastName =>
    exact (fallback_result_spec ctx existing_names lastName).1

theorem okName_not_mem {ctx : FileCtx} {existing_names : Finset String} {name : String}
    (h : okName ctx existing_names name = true) : name ∉ existing_names := by
  simp only [okName, Bool.and_eq_true, Bool.not_eq_true', decide_eq_false_iff_not] at h
  exact h.1

theorem okName_not_elsewhere {ctx : FileCtx} {existing_names : Finset String} {name : String}
    (h : okName ctx existing_names name = true) :
    ¬ (name ++ ctx.ext ∈ ctx.dirEntries ∧ name ≠ ctx.stem) := by
  simp only [okName, Bool.and_eq_true, Bool.not_eq_true'] at h
  intro hc
  have := h.2
  rw [existsElsewhere] at this
  simp only [Bool.and_eq_false_iff, decide_eq_false_iff_not, Bool.not_eq_false,
    decide_eq_true_eq] at this
  rcases this with h1 | h2
  · exact h1 hc.1
  · exact hc.2 (by simpa using h2)

/-- If every attempt's candidate fails the checks, the retry phase exhausts
and hands the candidate of the LAST attempt to the fallback phase. -/
theorem attemptPhase_all_bad (ctx : FileCtx) (source : Nat → Option String)
    (existing_names : Finset String) :
    ∀ (n i : Nat) (lastName : String), 0 < n →
      (∀ j, j < n → okName ctx existing_names (orFile (source (i + j))) = false) →
      attemptPhase ctx source existing_names i n lastName =
        Sum.inr (orFile (source (i + n - 1))) := by
  intro n
  induction n with
  | zero => intro i lastName h; omega
  | succ m ih =>
    intro i lastName _ hall
    have h0 : okName ctx existing_names (orFile (source i)) = false := by
      have := hall 0 (by omega)
      simpa using this
    rw [attemptPhase, if_neg (by simp [h0])]
    by_cases hm : m = 0
    · subst hm
      rw [attemptPhase]
      norm_num
    · have := ih (i + 1) (orFile (source i)) (by omega)
        (by intro j hj
            have := hall (j + 1) (by omega)
            have harg : i + 1 + j = i + (j + 1) := by omega
            rw [harg]
            exact this)
      rw [this]
      have harg : i + 1 + m - 1 = i + (m + 1) - 1 := by omega
      rw [harg]

/-- The value handed to the fallback phase is either the initial `"file"` or a
candidate the source produced on some attempt. -/
theorem attemptPhase_inr_spec (ctx : FileCtx) (source : Nat → Option String)
    (existing_names : Finset String) :
    ∀ (n i : Nat) (lastName b : String),
      attemptPhase ctx source existing_names i n lastName = Sum.inr b →
      b = lastName ∨ ∃ j, i ≤ j ∧ j < i + n ∧ b = orFile (source j) := by
  intro n
  induction n with
  | zero =>
    intro i lastName b h
    rw [attemptPhase] at h
    cases h
    exact Or.inl rfl
  | succ m ih =>
    intro i lastName b h
    rw [attemptPhase] at h
    by_cases hok : okName ctx existing_names (orFile (source i)) = true
    · rw [if_pos hok] at h
      cases h
    · rw [if_neg (by simpa using hok)] at h
      rcases ih (i + 1) (orFile (source i)) b h with heq | ⟨j, hj1, hj2, hj3⟩
      · exact Or.inr ⟨i, by omega, by omega, heq⟩
      · exact Or.inr ⟨j, by omega, by omega, hj3⟩

/-- Every name produced for a batch avoids the initial claimed set. -/
theorem process_files_not_mem_claimed :
    ∀ (l : List (FileCtx × (Nat → Option String))) (claimed : Finset String) (x : String),
      x ∈ process_files l claimed → x ∉ claimed := by
  intro l
  induction l with
  | nil => intro claimed x hx; cases hx
  | cons hd tl ih =>
    intro claimed x hx
    obtain ⟨ctx, src⟩ := hd
    rw [process_files] at hx
    rcases List.mem_cons.mp hx with heq | htl
    · rw [heq]
      exact okName_not_mem (unique_suggestion_ok ctx src claimed 3)
    · intro hmem
      exact ih _ x htl (Finset.mem_insert_of_mem hmem)

/-- Within a batch, the assigned base names are pairwise distinct. -/
theorem process_files_nodup :
    ∀ (l : List (FileCtx × (Nat → Option String))) (claimed : Finset String),
      (process_files l claimed).Nodup := by
  intro l
  induction l with
  | nil => intro claimed; simp [process_files]
  | cons hd tl ih =>
    intro claimed
    obtain ⟨ctx, src⟩ := hd
    rw [process_files]
    refine List.nodup_cons.mpr ⟨?_, ih _⟩
    intro hmem
    have := process_files_not_mem_claimed tl _ _ hmem
    exact this (Finset.mem_insert_self _ _)

/-! ### Claims about the Resolver -/

/-- C1: for every call to `unique_suggestion` with at least one attempt, the
returned base name is not in `existing_names` and no directory entry other
than the file itself occupies `directory/returnedName+ext`; consequently, in a
batch where each finalized name joins the claimed set before the next file is
resolved, no two files get the same base name. -/
theorem C1_uniqueness :
    (∀ (ctx : FileCtx) (source : Nat → Option String) (existing_names : Finset String)
        (attempts : Nat), 1 ≤ attempts →
      unique_suggestion ctx source existing_names attempts ∉ existing_names ∧
      ¬ (unique_suggestion ctx source existing_names attempts ++ ctx.ext ∈ ctx.dirEntries ∧
          unique_suggestion ctx source existing_names attempts ≠ ctx.stem)) ∧
    ∀ (l : List (FileCtx × (Nat → Option String))) (claimed : Finset String),
      (process_files l claimed).Nodup := by
  constructor
  · intro ctx source existing_names attempts _
    exact ⟨okName_not_mem (unique_suggestion_ok ctx source existing_names attempts),
      okName_not_elsewhere (unique_suggestion_ok ctx source existing_names attempts)⟩
  · exact process_files_nodup

/-- Witness for C1 at a concrete input. -/
theorem C1_uniqueness_witness :
    unique_suggestion ⟨"a", ".txt", ∅⟩ (fun _ => some "x") {"y"} 1 ∉ ({"y"} : Finset String) :=
  (C1_uniqueness.1 ⟨"a", ".txt", ∅⟩ (fun _ => some "x") {"y"} 1 (by decide)).1

/-- C2: the numeric-suffix fallback halts: among the first
`existing_names.card + dirEntries.card + 1` candidates one already passes both
checks (so the loop needs only finitely many iterations), and for every source
— in particular one returning the same candidate on every attempt — the
resolver returns a name passing both non-collision conditions. -/
theorem C2_fallback_termination :
    (∀ (ctx : FileCtx) (existing_names : Finset String) (base : String),
      ∃ j, j ≤ existing_names.card + ctx.dirEntries.card ∧
        okName ctx existing_names (fallbackName base j) = true) ∧
    ∀ (ctx : FileCtx) (existing_names : Finset String) (c : Option String) (attempts : Nat),
      okName ctx existing_names
        (unique_suggestion ctx (fun _ => c) existing_names attempts) = true := by
  constructor
  · intro ctx existing_names base
    obtain ⟨j, hj, hok⟩ := fallback_succeeds ctx existing_names base
    rw [loopFuel] at hj
    exact ⟨j, by omega, hok⟩
  · intro ctx existing_names c attempts
    exact unique_suggestion_ok ctx (fun _ => c) existing_names attempts

/-- C3: with all attempts exhausted without a clean candidate, the resolver
disambiguates from the last produced candidate in the exact order `lastName`,
`lastName-1`, `lastName-2`, ..., returning the first value passing both
checks; and the three-file batch with suggestions "x", "x", "y" resolves to
["x", "x-1", "y"]. -/
theorem C3_fallback_order :
    (∀ (ctx : FileCtx) (source : Nat → Option String) (existing_names : Finset String)
        (attempts : Nat), 1 ≤ attempts →
      (∀ j, j < attempts → okName ctx existing_names (orFile (source j)) = false) →
      ∃ m, unique_suggestion ctx source existing_names attempts =
          fallbackName (orFile (source (attempts - 1))) m ∧
        okName ctx existing_names (fallbackName (orFile (source (attempts - 1))) m) = true ∧
        ∀ i, i < m →
          okName ctx existing_names (fallbackName (orFile (source (attempts - 1))) i) = false) ∧
    process_files
      [(⟨"a", ".txt", ∅⟩, fun _ => some "x"),
       (⟨"b", ".txt", ∅⟩, fun _ => some "x"),
       (⟨"c", ".txt", ∅⟩, fun _ => some "y")] ∅ = ["x", "x-1", "y"] := by
  constructor
  · intro ctx source existing_names attempts h1 hall
    have hexh := attemptPhase_all_bad ctx source existing_names attempts 0 "file" (by omega)
      (by intro j hj; simpa using hall j hj)
    have harg : 0 + attempts - 1 = attempts - 1 := by omega
    rw [harg] at hexh
    unfold unique_suggestion
    rw [hexh]
    obtain ⟨hok, m, hm, hfirst⟩ :=
      fallback_result_spec ctx existing_names (orFile (source (attempts - 1)))
    exact ⟨m, hm, by rw [hm] at hok; exact hok, hfirst⟩
  · decide

/-- Witness for C3 at a concrete input (the second file of the example: all
three attempts yield "x", which is already claimed). -/
theorem C3_fallback_order_witness :
    ∃ m, unique_suggestion ⟨"b", ".txt", ∅⟩ (fun _ => some "x") {"x"} 3 =
        fallbackName (orFile ((fun _ => some "x") (3 - 1))) m ∧
      okName ⟨"b", ".txt", ∅⟩ {"x"}
        (fallbackName (orFile ((fun _ => some "x") (3 - 1))) m) = true ∧
      ∀ i, i < m → okName ⟨"b", ".txt", ∅⟩ {"x"}
        (fallbackName (orFile ((fun _ => some "x") (3 - 1))) i) = false :=
  C3_fallback_order.1 ⟨"b", ".txt", ∅⟩ (fun _ => some "x") {"x"} 3 (by decide) (by decide)

/-- C4: a file does not collide with itself: the on-disk check exempts the
entry at the file's own canonical path, and a suggested name equal to the
file's own base name that is not claimed is accepted on the first qualifying
attempt, without numeric suffixing. -/
theorem C4_self_exemption :
    (∀ ctx : FileCtx, existsElsewhere ctx ctx.stem = false) ∧
    ∀ (ctx : FileCtx) (source : Nat → Option String) (existing_names : Finset String)
      (attempts : Nat), 1 ≤ attempts → orFile (source 0) = ctx.stem →
      ctx.stem ∉ existing_names →
      unique_suggestion ctx source existing_names attempts = ctx.stem := by
  have hexempt : ∀ ctx : FileCtx, existsElsewhere ctx ctx.stem = false := by
    intro ctx
    simp [existsElsewhere]
  refine ⟨hexempt, ?_⟩
  intro ctx source existing_names attempts h1 hsrc hmem
  obtain ⟨n, rfl⟩ : ∃ n, attempts = n + 1 := ⟨attempts - 1, by omega⟩
  have hok : okName ctx existing_names (orFile (source 0)) = true := by
    rw [hsrc, okName, hexempt]
    simp [hmem]
  unfold unique_suggestion
  rw [attemptPhase, if_pos hok]
  exact hsrc

/-- Witness for C4 at a concrete input (mirrors the repository test
`test_unique_suggestion_skips_suffix_when_same_name`: the file `original.txt`
exists in its own directory and the source suggests "original"). -/
theorem C4_self_exemption_witness :
    unique_suggestion ⟨"original", ".txt", {"original.txt"}⟩
      (fun _ => some "original") ∅ 3 = "original" :=
  C4_self_exemption.2 ⟨"original", ".txt", {"original.txt"}⟩
    (fun _ => some "original") ∅ 3 (by decide) (by decide) (by decide)

/-- C8: a null or empty suggestion is replaced by the literal `"file"` and is
never surfaced as an error; when the source never produces a usable name, the
base used for numeric disambiguation defaults to `"file"`, so the result is
`"file"` or `"file-N"`. -/
theorem C8_file_fallback :
    orFile none = "file" ∧ orFile (some "") = "file" ∧
    ∀ (ctx : FileCtx) (source : Nat → Option String) (existing_names : Finset String)
      (attempts : Nat),
      (∀ i, i < attempts → source i = none ∨ source i = some "") →
      ∃ m, unique_suggestion ctx source existing_names attempts = fallbackName "file" m := by
  refine ⟨rfl, rfl, ?_⟩
  intro ctx source existing_names attempts hall
  have hfile : ∀ i, i < attempts → orFile (source i) = "file" := by
    intro i hi
    rcases hall i hi with h | h <;> rw [h] <;> rfl
  unfold unique_suggestion
  cases h : attemptPhase ctx source existing_names 0 attempts "file" with
  | inl name =>
    obtain ⟨_, j, hj0, hjlt, hjeq⟩ :=
      attemptPhase_inl_spec ctx source existing_names attempts 0 "file" name h
    refine ⟨0, ?_⟩
    rw [fallbackName, if_pos rfl, hjeq, hfile j (by omega)]
  | inr lastName =>
    have hbase : lastName = "file" := by
      rcases attemptPhase_inr_spec ctx source existing_names attempts 0 "file" lastName h with
        heq | ⟨j, hj0, hjlt, hjeq⟩
      · exact heq
      · rw [hjeq, hfile j (by omega)]
    subst hbase
    obtain ⟨_, m, hm, _⟩ := fallback_result_spec ctx existing_names "file"
    exact ⟨m, hm⟩

/-- Witness for C8 at a concrete input (source always returns null). -/
theorem C8_file_fallback_witness :
    ∃ m, unique_suggestion ⟨"a", ".txt", ∅⟩ (fun _ => none) ∅ 3 = fallbackName "file" m :=
  C8_file_fallback.2.2 ⟨"a", ".txt", ∅⟩ (fun _ => none) ∅ 3 (by decide)

/-! ### Regeneration (`FileRenamerUI.regenerate_filename`) -/

/-- Lookup `self.file_data.get(filepath)`: `self.file_data` is modelled as an
association list path → assigned base name (the dict has unique keys). -/
def getAssign (data : List (String × String)) (p : String) : Option String :=
  (data.find? (fun e => decide (e.1 = p))).map Prod.snd

/-- The set `set(self.file_data.values()) minus the singleton of the current assignment`
(src/main.py line 154): the claimed set with the file's own current
assignment removed (removing nothing when the path has no assignment,
like the Python set difference with `{None}`). -/
def valuesExceptSelf (data : List (String × String)) (p : String) : Finset String :=
  (data.map Prod.snd).toFinset \
    (match getAssign data p with
     | some v => {v}
     | none => ∅)

/-- Embedding of `FileRenamerUI.regenerate_filename` (src/main.py lines 152-157): resolve a
fresh name for `p` against the reduced claimed set, then store it for `p`
(dict update = pointwise update of the association list at key `p`). -/
def regenerate_filename (data : List (String × String)) (p : String)
    (ctx : FileCtx) (source : Nat → Option String) : List (String × String) :=
  let new_name := unique_suggestion ctx source (valuesExceptSelf data p) 3
  data.map (fun e => if e.1 = p then (e.1, new_name) else e)

theorem getAssign_some {data : List (String × String)} {p v : String}
    (h : getAssign data p = some v) : ∃ f ∈ data, f.1 = p ∧ f.2 = v := by
  rw [getAssign, Option.map_eq_some'] at h
  obtain ⟨f, hf, hfv⟩ := h
  exact ⟨f, List.mem_of_find?_eq_some hf, by simpa using List.find?_some hf, hfv⟩

/-- Updating key `p` does not change the assignment found for any other key. -/
theorem getAssign_update_ne :
    ∀ (data : List (String × String)) (p q new : String), q ≠ p →
      getAssign (data.map (fun e => if e.1 = p then (e.1, new) else e)) q =
        getAssign data q := by
  intro data
  induction data with
  | nil => intro p q new _; rfl
  | cons hd tl ih =>
    intro p q new hqp
    simp only [getAssign, List.map_cons]
    by_cases hq : hd.1 = q
    · have hp : ¬ hd.1 = p := by rw [hq]; exact hqp
      rw [if_neg hp, List.find?_cons_of_pos _ (by simpa using hq),
        List.find?_cons_of_pos _ (by simpa using hq)]
    · have hkey : (if hd.1 = p then (hd.1, new) else hd).1 = hd.1 := by
        by_cases h : hd.1 = p <;> simp [h]
      rw [List.find?_cons_of_neg _ (by simp [hkey, hq]),
        List.find?_cons_of_neg _ (by simpa using hq)]
      exact ih p q new hqp

/-- Pointwise update at key `p` with a value fresh for every other entry
preserves distinctness of the assigned values. -/
theorem update_values_nodup :
    ∀ (data : List (String × String)) (p new : String),
      (data.map Prod.fst).Nodup →
      (data.map Prod.snd).Nodup →
      (∀ e ∈ data, e.1 ≠ p → e.2 ≠ new) →
      ((data.map (fun e => if e.1 = p then (e.1, new) else e)).map Prod.snd).Nodup := by
  intro data
  induction data with
  | nil => intro p new _ _ _; simp
  | cons hd tl ih =>
    intro p new hk hv hne
    simp only [List.map_cons, List.nodup_cons] at hk hv
    by_cases hhd : hd.1 = p
    · have htl : tl.map (fun e => if e.1 = p then (e.1, new) else e) = tl := by
        have hall : ∀ e ∈ tl, (if e.1 = p then (e.1, new) else e) = id e := by
          intro e he
          rw [if_neg, id]
          intro hep
          exact hk.1 (List.mem_map.mpr ⟨e, he, by rw [hep, ← hhd]⟩)
        rw [List.map_congr_left hall, List.map_id]
      simp only [List.map_cons, htl, if_pos hhd, List.nodup_cons]
      refine ⟨?_, hv.2⟩
      intro hmem
      obtain ⟨e, he, hev⟩ := List.mem_map.mp hmem
      have hep : e.1 ≠ p := by
        intro hep
        exact hk.1 (List.mem_map.mpr ⟨e, he, by rw [hep, ← hhd]⟩)
      exact hne e (List.mem_cons_of_mem _ he) hep hev
    · simp only [List.map_cons, if_neg hhd, List.nodup_cons]
      refine ⟨?_, ih p new hk.2 hv.2 (fun e he h2 => hne e (List.mem_cons_of_mem _ he) h2)⟩
      intro hmem
      simp only [List.map_map] at hmem
      obtain ⟨e, he, hev⟩ := List.mem_map.mp hmem
      by_cases hep : e.1 = p
      · simp only [Function.comp, if_pos hep] at hev
        exact hne hd (List.mem_cons_self _ _) hhd hev.symm
      · simp only [Function.comp, if_neg hep] at hev
        exact hv.1 (List.mem_map.mpr ⟨e, he, hev⟩)

/-- C5: regenerating file A's name never changes the assignment of any other
file B (both as lookup stability and as row preservation), and if the
assignment map had pairwise-distinct keys and pairwise-distinct base names
before the call, the base names are again pairwise distinct after it. -/
theorem C5_regeneration_independence :
    ∀ (data : List (String × String)) (p : String) (ctx : FileCtx)
      (source : Nat → Option String),
      ((∀ q, q ≠ p → getAssign (regenerate_filename data p ctx source) q = getAssign data q) ∧
       (∀ e ∈ data, e.1 ≠ p → e ∈ regenerate_filename data p ctx source)) ∧
      ((data.map Prod.fst).Nodup → (data.map Prod.snd).Nodup →
        ((regenerate_filename data p ctx source).map Prod.snd).Nodup) := by
  intro data p ctx source
  constructor
  · constructor
    · intro q hq
      exact getAssign_update_ne data p q _ hq
    · intro e he hep
      rw [regenerate_filename]
      exact List.mem_map.mpr ⟨e, he, by rw [if_neg hep]⟩
  · intro hk hv
    unfold regenerate_filename
    apply update_values_nodup data p _ hk hv
    intro e he hep hcontra
    have hnot := okName_not_mem (unique_suggestion_ok ctx source (valuesExceptSelf data p) 3)
    apply hnot
    rw [← hcontra]
    rw [valuesExceptSelf, Finset.mem_sdiff]
    refine ⟨List.mem_toFinset.mpr (List.mem_map.mpr ⟨e, he, rfl⟩), ?_⟩
    cases hgd : getAssign data p with
    | none => simp
    | some v =>
      simp only [Finset.mem_singleton]
      intro hev
      obtain ⟨f, hf, hfp, hfv⟩ := getAssign_some hgd
      have hef : e = f := List.inj_on_of_nodup_map hv he hf (by rw [hev, hfv])
      exact hep (by rw [hef, hfp])

/-- Witness for C5 at a concrete input: regenerating "a.txt" leaves the
assignment of "b.txt" unchanged and keeps the values distinct. -/
theorem C5_regeneration_independence_witness :
    getAssign (regenerate_filename [("a.txt", "x"), ("b.txt", "y")] "a.txt"
        ⟨"a", ".txt", ∅⟩ (fun _ => some "z")) "b.txt" =
      getAssign [("a.txt", "x"), ("b.txt", "y")] "b.txt" ∧
    ((regenerate_filename [("a.txt", "x"), ("b.txt", "y")] "a.txt"
        ⟨"a", ".txt", ∅⟩ (fun _ => some "z")).map Prod.snd).Nodup :=
  ⟨(C5_regeneration_independence [("a.txt", "x"), ("b.txt", "y")] "a.txt"
      ⟨"a", ".txt", ∅⟩ (fun _ => some "z")).1.1 "b.txt" (by decide),
   (C5_regeneration_independence [("a.txt", "x"), ("b.txt", "y")] "a.txt"
      ⟨"a", ".txt", ∅⟩ (fun _ => some "z")).2 (by decide) (by decide)⟩

/-! ### Rename applier (`FileRenamerUI.rename_files`, src/main.py lines 159-184) -/

/-- One row of the rename pass: the file's path, its directory and
`splitext` parts (`path` is `dir/stem ++ ext`), the checkbox state
(`self.rename_vars`, defaulting to unselected), and the assigned base name
(`self.file_data.get(filepath, "")`, empty = unset). -/
structure RenameTask where
  path : String
  dir : String
  stem : String
  ext : String
  selected : Bool
  assigned : String
deriving DecidableEq

/-- Model of `os.path.join(dir, f)` for the simple forms used here. -/
def pathJoin (d f : String) : String := if d = "" then f else d ++ "/" ++ f

/-- The error string built at src/main.py line 175. -/
def renameErrorMsg (path e : String) : String := "Failed to rename " ++ path ++ ": " ++ e

/-- Embedding of `FileRenamerUI.rename_files`: walk the tasks in order; for each selected
task, skip when the assigned name is empty or when the target canonicalizes to
the file itself (`assigned = stem`, see module docstring); otherwise attempt
the filesystem rename (`fsRename`, the `os.rename` oracle returning either
success or the exception message), appending any failure to the error list and
continuing.  Returns (performed renames as (source, target) pairs, errors). -/
def rename_files (fsRename : String → String → Except String Unit) :
    List RenameTask → List (String × String) × List String
  | [] => ([], [])
  | t :: ts =>
    let rest := rename_files fsRename ts
    if t.selected then
      if t.assigned = "" then rest
      else if t.assigned = t.stem then rest
      else
        match fsRename t.path (pathJoin t.dir (t.assigned ++ t.ext)) with
        | Except.ok _ => ((t.path, pathJoin t.dir (t.assigned ++ t.ext)) :: rest.1, rest.2)
        | Except.error e => (rest.1, renameErrorMsg t.path e :: rest.2)
    else rest

/-- The rename (if any) that `rename_files` performs for one task, in
isolation from every other task. -/
def taskRename (fsRename : String → String → Except String Unit) (t : RenameTask) :
    Option (String × String) :=
  if t.selected = true ∧ t.assigned ≠ "" ∧ t.assigned ≠ t.stem then
    match fsRename t.path (pathJoin t.dir (t.assigned ++ t.ext)) with
    | Except.ok _ => some (t.path, pathJoin t.dir (t.assigned ++ t.ext))
    | Except.error _ => none
  else none

/-- The failure record (if any) that `rename_files` produces for one task, in
isolation from every other task. -/
def taskFailure (fsRename : String → String → Except String Unit) (t : RenameTask) :
    Option String :=
  if t.selected = true ∧ t.assigned ≠ "" ∧ t.assigned ≠ t.stem then
    match fsRename t.path (pathJoin t.dir (t.assigned ++ t.ext)) with
    | Except.ok _ => none
    | Except.error e => some (renameErrorMsg t.path e)
  else none

/-- C6: the outcome of the batch rename pass decomposes per task — every task
contributes its own rename or failure record independently of the others, so a
filesystem failure on one file is recorded (with the path and the underlying
reason) while every remaining task is still processed and no exception escapes
(the applier is a total function returning the full outcome collection).  For
the concrete 3-file batch where only the second rename fails, files 1 and 3
are renamed and file 2 alone is reported failed. -/
theorem C6_partial_failure_isolation :
    (∀ (fsRename : String → String → Except String Unit) (ts : List RenameTask),
      rename_files fsRename ts =
        (ts.filterMap (taskRename fsRename), ts.filterMap (taskFailure fsRename))) ∧
    rename_files
      (fun src _ => if src = "/d/b.txt" then Except.error "target exists" else Except.ok ())
      [⟨"/d/a.txt", "/d", "a", ".txt", true, "x"⟩,
       ⟨"/d/b.txt", "/d", "b", ".txt", true, "y"⟩,
       ⟨"/d/c.txt", "/d", "c", ".txt", true, "z"⟩] =
      ([("/d/a.txt", "/d/x.txt"), ("/d/c.txt", "/d/z.txt")],
       ["Failed to rename /d/b.txt: target exists"]) := by
  constructor
  · intro fs ts
    induction ts with
    | nil => rfl
    | cons t ts ih =>
      simp only [rename_files, List.filterMap_cons]
      rw [ih]
      by_cases hsel : t.selected = true
      · by_cases h0 : t.assigned = ""
        · simp [taskRename, taskFailure, hsel, h0]
        · by_cases hst : t.assigned = t.stem
          · simp [taskRename, taskFailure, hsel, h0, hst]
          · cases hfs : fs t.path (pathJoin t.dir (t.assigned ++ t.ext)) with
            | ok u => simp [taskRename, taskFailure, hsel, h0, hst, hfs]
            | error e => simp [taskRename, taskFailure, hsel, h0, hst, hfs]
      · simp [taskRename, taskFailure, hsel]
  · decide

/-- C7: a selected task whose assigned name is empty/unset, or whose target
path canonicalizes to the file itself (`assigned = stem`), contributes no
filesystem operation and no error: the batch outcome with the task present
equals the outcome without it. -/
theorem C7_noop_skip :
    ∀ (fsRename : String → String → Except String Unit) (t : RenameTask)
      (ts : List RenameTask), t.selected = true →
      t.assigned = "" ∨ t.assigned = t.stem →
      rename_files fsRename (t :: ts) = rename_files fsRename ts := by
  intro fs t ts hsel hcase
  rcases hcase with h | h
  · simp [rename_files, hsel, h]
  · by_cases h0 : t.assigned = ""
    · simp [rename_files, hsel, h0]
    · simp [rename_files, hsel, h0, h]

/-- Witness for C7 at a concrete input: a task renaming `a.txt` to its own
name is skipped even under a filesystem oracle that would reject every
rename (no operation is attempted, no error is recorded). -/
theorem C7_noop_skip_witness :
    rename_files (fun _ _ => Except.error "never")
      [⟨"/d/a.txt", "/d", "a", ".txt", true, "a"⟩] =
    rename_files (fun _ _ => Except.error "never") [] :=
  C7_noop_skip (fun _ _ => Except.error "never")
    ⟨"/d/a.txt", "/d", "a", ".txt", true, "a"⟩ [] (by decide) (by decide)

/-! ### CLI dry run (src/main.py lines 195-200) -/

/-- One structured record printed by the CLI per input file:
`json.dumps({"file": path, "suggested": new_name})`. -/
structure CliRecord where
  file : String
  suggested : String
deriving DecidableEq

/-- The CLI loop: `used_names` starts empty; each path is resolved with
`unique_suggestion` against `used_names`, the resolved name is added, and one
record is emitted per file.  In a dry run (no `--rename` flag) this is the
whole observable behaviour. -/
def cliLoop : List (String × FileCtx × (Nat → Option String)) → Finset String → List CliRecord
  | [], _ => []
  | (path, ctx, src) :: rest, used =>
    let new_name := unique_suggestion ctx src used 3
    { file := path, suggested := new_name } :: cliLoop rest (insert new_name used)

/-- The CLI invocation in dry-run mode. -/
def cliDryRun (inputs : List (String × FileCtx × (Nat → Option String))) : List CliRecord :=
  cliLoop inputs ∅

/-- C9: the dry run emits exactly one record per input file, whose `file`
field is that file's path and whose `suggested` field is the flat
uniqueness-resolved base name — the same name the batch resolver
(`process_files`) assigns, not a nested suggestion object. -/
theorem C9_dry_run_records :
    ∀ (inputs : List (String × FileCtx × (Nat → Option String))) (used : Finset String),
      (cliLoop inputs used).length = inputs.length ∧
      (cliLoop inputs used).map CliRecord.file = inputs.map (fun i => i.1) ∧
      (cliLoop inputs used).map CliRecord.suggested =
        process_files (inputs.map (fun i => i.2)) used := by
  intro inputs
  induction inputs with
  | nil => intro used; exact ⟨rfl, rfl, rfl⟩
  | cons hd tl ih =>
    intro used
    obtain ⟨path, ctx, src⟩ := hd
    refine ⟨?_, ?_, ?_⟩
    · simp only [cliLoop, List.length_cons]
      exact congrArg (· + 1) (ih _).1
    · simp only [cliLoop, List.map_cons]
      exact congrArg (path :: ·) (ih _).2.1
    · simp only [cliLoop, List.map_cons, process_files]
      exact congrArg (unique_suggestion ctx src used 3 :: ·) (ih _).2.2

/-! ### slugify (src/suggest_file_names.py lines 48-51) -/

/-- Python `str.lower()` restricted to what the regex below can observe: code
points 65-90 ('A'-'Z') shift to 97-122 ('a'-'z'), and the two non-ASCII code
points whose Unicode lowercase introduces an ASCII letter are mapped as Python
maps them (U+212A KELVIN SIGN to "k"; U+0130 LATIN CAPITAL LETTER I WITH DOT
ABOVE to "i" followed by combining U+0307).  Every other character is kept
unchanged: its Python lowercase contains no ASCII alphanumeric character
(checked exhaustively against the Unicode 14 case mappings, including the one
context-sensitive lower mapping, final sigma, which stays non-ASCII), so the
runs matched by `[a-zA-Z0-9]+` are exactly those of the really lowered text. -/
def pyLower (c : Char) : List Char :=
  if 65 ≤ c.toNat ∧ c.toNat ≤ 90 then [Char.ofNat (c.toNat + 32)]
  else if c.toNat = 0x212A then ['k']
  else if c.toNat = 0x0130 then ['i', Char.ofNat 0x0307]
  else [c]

/-- The regex character class `[a-zA-Z0-9]`. -/
def isAsciiAlnum (c : Char) : Bool :=
  decide ((97 ≤ c.toNat ∧ c.toNat ≤ 122) ∨ (65 ≤ c.toNat ∧ c.toNat ≤ 90) ∨
    (48 ≤ c.toNat ∧ c.toNat ≤ 57))

/-- Lowercase ASCII letter, digit, or hyphen ('-' is code point 45). -/
def isSlugChar (c : Char) : Bool :=
  decide ((97 ≤ c.toNat ∧ c.toNat ≤ 122) ∨ (48 ≤ c.toNat ∧ c.toNat ≤ 57) ∨ c.toNat = 45)

/-- Model of `re.findall(r"[a-zA-Z0-9]+", s)`: the maximal runs of `[a-zA-Z0-9]`
characters, in order.  `acc` holds the characters of the current run,
reversed. -/
def findRuns : List Char → List Char → List (List Char)
  | [], acc => if acc = [] then [] else [acc.reverse]
  | c :: cs, acc =>
    if isAsciiAlnum c then findRuns cs (c :: acc)
    else if acc = [] then findRuns cs [] else acc.reverse :: findRuns cs []

/-- Model of `"-".join(words)`, at the character level. -/
def joinHyphen : List (List Char) → List Char
  | [] => []
  | [w] => w
  | w :: ws => w ++ '-' :: joinHyphen ws

/-- Embedding of `slugify(text, max_words=6)`: lowercase the text (per-character
lowering concatenated, i.e. `text.lower()`), take the first `max_words`
alphanumeric words, join them with hyphens, and substitute the literal
`"file"` when the join is empty (Python `or "file"`). -/
def slugify (text : String) (max_words : Nat) : String :=
  let words := findRuns (text.data.flatMap pyLower) []
  let joined := joinHyphen (words.take max_words)
  if joined = [] then "file" else String.mk joined

example : slugify (String.mk [Char.ofNat 0x212A]) 6 = "k" := by decide
example : slugify (String.mk [Char.ofNat 0x0130, 'x']) 6 = "i-x" := by decide

theorem upperShift_slug : ∀ n, n < 123 → 97 ≤ n → isSlugChar (Char.ofNat n) = true := by
  decide

/-- Any alphanumeric character of the lowered text is a lowercase letter or a
digit. -/
theorem pyLower_slug (c : Char) :
    ∀ d ∈ pyLower c, isAsciiAlnum d = true → isSlugChar d = true := by
  intro d hd halnum
  rw [pyLower] at hd
  by_cases h1 : 65 ≤ c.toNat ∧ c.toNat ≤ 90
  · rw [if_pos h1] at hd
    rcases List.mem_singleton.mp hd with rfl
    exact upperShift_slug (c.toNat + 32) (by omega) (by omega)
  · rw [if_neg h1] at hd
    by_cases h2 : c.toNat = 0x212A
    · rw [if_pos h2] at hd
      rcases List.mem_singleton.mp hd with rfl
      decide
    · rw [if_neg h2] at hd
      by_cases h3 : c.toNat = 0x0130
      · rw [if_pos h3] at hd
        rcases List.mem_cons.mp hd with rfl | hd
        · decide
        · rcases List.mem_singleton.mp hd with rfl
          exact absurd halnum (by decide)
      · rw [if_neg h3] at hd
        rcases List.mem_singleton.mp hd with rfl
        simp only [isAsciiAlnum, decide_eq_true_eq] at halnum
        simp only [isSlugChar, decide_eq_true_eq]
        omega

/-- A character that is not ASCII-alphanumeric and is neither U+212A nor
U+0130 is left unchanged by the lowering. -/
theorem pyLower_eq_self {c : Char} (h : isAsciiAlnum c = false)
    (h1 : c.toNat ≠ 0x212A) (h2 : c.toNat ≠ 0x0130) : pyLower c = [c] := by
  have hn : ¬ (65 ≤ c.toNat ∧ c.toNat ≤ 90) := by
    simp only [isAsciiAlnum, decide_eq_false_iff_not] at h
    omega
  rw [pyLower, if_neg hn, if_neg h1, if_neg h2]

/-- Lowering a text none of whose characters needs lowering is the identity. -/
theorem flatMap_pyLower_eq_self :
    ∀ l : List Char, (∀ c ∈ l, pyLower c = [c]) → l.flatMap pyLower = l := by
  intro l
  induction l with
  | nil => intro _; rfl
  | cons c cs ih =>
    intro hall
    rw [List.flatMap_cons, hall c (List.mem_cons_self _ _),
      ih (fun d hd => hall d (List.mem_cons_of_mem _ hd))]
    rfl

/-- Every character of every run is alphanumeric. -/
theorem findRuns_chars_alnum :
    ∀ (l acc : List Char), (∀ c ∈ acc, isAsciiAlnum c = true) →
      ∀ w ∈ findRuns l acc, ∀ c ∈ w, isAsciiAlnum c = true := by
  intro l
  induction l with
  | nil =>
    intro acc hacc w hw
    rw [findRuns] at hw
    by_cases h : acc = []
    · rw [if_pos h] at hw; cases hw
    · rw [if_neg h] at hw
      rcases List.mem_singleton.mp hw with rfl
      intro c hc
      exact hacc c (List.mem_reverse.mp hc)
  | cons d cs ih =>
    intro acc hacc w hw
    rw [findRuns] at hw
    by_cases hd : isAsciiAlnum d = true
    · rw [if_pos hd] at hw
      refine ih (d :: acc) ?_ w hw
      intro c hc
      rcases List.mem_cons.mp hc with rfl | hc
      · exact hd
      · exact hacc c hc
    · rw [if_neg hd] at hw
      by_cases ha : acc = []
      · rw [if_pos ha] at hw
        exact ih [] (by intro c hc; cases hc) w hw
      · rw [if_neg ha] at hw
        rcases List.mem_cons.mp hw with rfl | hw
        · intro c hc
          exact hacc c (List.mem_reverse.mp hc)
        · exact ih [] (by intro c hc; cases hc) w hw

/-- Every character of every run comes from the scanned text or the
accumulator. -/
theorem findRuns_chars_mem :
    ∀ (l acc : List Char), ∀ w ∈ findRuns l acc, ∀ c ∈ w, c ∈ l ∨ c ∈ acc := by
  intro l
  induction l with
  | nil =>
    intro acc w hw c hc
    rw [findRuns] at hw
    by_cases h : acc = []
    · rw [if_pos h] at hw; cases hw
    · rw [if_neg h] at hw
      rcases List.mem_singleton.mp hw with rfl
      exact Or.inr (List.mem_reverse.mp hc)
  | cons d cs ih =>
    intro acc w hw c hc
    rw [findRuns] at hw
    by_cases hd : isAsciiAlnum d = true
    · rw [if_pos hd] at hw
      rcases ih (d :: acc) w hw c hc with h | h
      · exact Or.inl (List.mem_cons_of_mem _ h)
      · rcases List.mem_cons.mp h with rfl | h
        · exact Or.inl (List.mem_cons_self _ _)
        · exact Or.inr h
    · rw [if_neg hd] at hw
      by_cases ha : acc = []
      · rw [if_pos ha] at hw
        rcases ih [] w hw c hc with h | h
        · exact Or.inl (List.mem_cons_of_mem _ h)
        · cases h
      · rw [if_neg ha] at hw
        rcases List.mem_cons.mp hw with rfl | hw
        · exact Or.inr (List.mem_reverse.mp hc)
        · rcases ih [] w hw c hc with h | h
          · exact Or.inl (List.mem_cons_of_mem _ h)
          · cases h

/-- Runs are nonempty. -/
theorem findRuns_ne_nil :
    ∀ (l acc : List Char), ∀ w ∈ findRuns l acc, w ≠ [] := by
  intro l
  induction l with
  | nil =>
    intro acc w hw
    rw [findRuns] at hw
    by_cases h : acc = []
    · rw [if_pos h] at hw; cases hw
    · rw [if_neg h] at hw
      rcases List.mem_singleton.mp hw with rfl
      simpa using h
  | cons d cs ih =>
    intro acc w hw
    rw [findRuns] at hw
    by_cases hd : isAsciiAlnum d = true
    · rw [if_pos hd] at hw
      exact ih (d :: acc) w hw
    · rw [if_neg hd] at hw
      by_cases ha : acc = []
      · rw [if_pos ha] at hw
        exact ih [] w hw
      · rw [if_neg ha] at hw
        rcases List.mem_cons.mp hw with rfl | hw
        · simpa using ha
        · exact ih [] w hw

/-- Scanning an all-alphanumeric block absorbs it into the accumulator. -/
theorem findRuns_append_alnum :
    ∀ (w rest acc : List Char), (∀ c ∈ w, isAsciiAlnum c = true) →
      findRuns (w ++ rest) acc = findRuns rest (w.reverse ++ acc) := by
  intro w
  induction w with
  | nil => intro rest acc _; simp
  | cons c cs ih =>
    intro rest acc hall
    have hc : isAsciiAlnum c = true := hall c (List.mem_cons_self _ _)
    rw [List.cons_append, findRuns, if_pos hc,
      ih rest (c :: acc) (fun d hd => hall d (List.mem_cons_of_mem _ hd))]
    have harr : cs.reverse ++ (c :: acc) = (c :: cs).reverse ++ acc := by simp
    rw [harr]

theorem joinHyphen_cons_cons (w v : List Char) (vs : List (List Char)) :
    joinHyphen (w :: v :: vs) = w ++ '-' :: joinHyphen (v :: vs) := rfl

/-- Characters of a hyphen-join come from the joined words or are hyphens. -/
theorem joinHyphen_chars :
    ∀ (ws : List (List Char)), ∀ c ∈ joinHyphen ws, (∃ w ∈ ws, c ∈ w) ∨ c = '-' := by
  intro ws
  induction ws with
  | nil => intro c hc; cases hc
  | cons w vs ih =>
    cases vs with
    | nil =>
      intro c hc
      rw [joinHyphen] at hc
      exact Or.inl ⟨w, List.mem_cons_self _ _, hc⟩
    | cons v vs2 =>
      intro c hc
      rw [joinHyphen_cons_cons] at hc
      rcases List.mem_append.mp hc with h | h
      · exact Or.inl ⟨w, List.mem_cons_self _ _, h⟩
      · rcases List.mem_cons.mp h with rfl | h
        · exact Or.inr rfl
        · rcases ih c h with ⟨w2, hw2, hcw⟩ | h
          · exact Or.inl ⟨w2, List.mem_cons_of_mem _ hw2, hcw⟩
          · exact Or.inr h

/-- Scanning a hyphen-join of nonempty all-alphanumeric words recovers exactly
those words (hyphens are not alphanumeric, so they terminate each run). -/
theorem findRuns_joinHyphen :
    ∀ (ws : List (List Char)), (∀ w ∈ ws, w ≠ []) →
      (∀ w ∈ ws, ∀ c ∈ w, isAsciiAlnum c = true) →
      findRuns (joinHyphen ws) [] = ws := by
  intro ws
  induction ws with
  | nil => intro _ _; rfl
  | cons w vs ih =>
    intro hne hall
    cases vs with
    | nil =>
      rw [joinHyphen, ← List.append_nil w,
        findRuns_append_alnum w [] [] (hall w (List.mem_cons_self _ _)), findRuns]
      rw [if_neg (by simp [hne w (List.mem_cons_self _ _)])]
      simp
    | cons v vs2 =>
      rw [joinHyphen_cons_cons,
        findRuns_append_alnum w ('-' :: joinHyphen (v :: vs2)) []
          (hall w (List.mem_cons_self _ _)),
        findRuns]
      rw [if_neg (by decide : ¬ isAsciiAlnum '-' = true),
        if_neg (by simp [hne w (List.mem_cons_self _ _)]),
        ih (fun u hu => hne u (List.mem_cons_of_mem _ hu))
          (fun u hu => hall u (List.mem_cons_of_mem _ hu))]
      simp

/-- A text with no alphanumeric character yields no runs. -/
theorem findRuns_nil_of_no_alnum :
    ∀ l : List Char, (∀ c ∈ l, isAsciiAlnum c = false) → findRuns l [] = [] := by
  intro l
  induction l with
  | nil => intro _; rfl
  | cons c cs ih =>
    intro hall
    rw [findRuns, if_neg (by simp [hall c (List.mem_cons_self _ _)]), if_pos rfl]
    exact ih (fun d hd => hall d (List.mem_cons_of_mem _ hd))

/-- C10 (amended): for every input string, `slugify` returns a nonempty string
consisting only of lowercase ASCII letters, digits, and hyphens (hence free of
path separators and extension dots), containing at most `max_words`
alphanumeric words (default 6); it returns the literal `"file"` whenever the
input contains no ASCII alphanumeric character and none of the two non-ASCII
characters (U+212A, U+0130) whose Python lowercase introduces an ASCII letter
— on those, as the last conjunct shows for the KELVIN SIGN, the lowered text
supplies a letter and `slugify` returns it instead of `"file"`.  (The converse
direction of the original claim is refuted by `C10_slugify_counterexample`.) -/
theorem C10_slugify_props :
    ∀ (text : String) (max_words : Nat), 1 ≤ max_words →
      slugify text max_words ≠ "" ∧
      (∀ c ∈ (slugify text max_words).data, isSlugChar c = true) ∧
      (findRuns (slugify text max_words).data []).length ≤ max_words ∧
      ((∀ c ∈ text.data,
          isAsciiAlnum c = false ∧ c.toNat ≠ 0x212A ∧ c.toNat ≠ 0x0130) →
        slugify text max_words = "file") ∧
      slugify (String.mk [Char.ofNat 0x212A]) 6 = "k" := by
  intro text mw hmw
  have hkelvin : slugify (String.mk [Char.ofNat 0x212A]) 6 = "k" := by decide
  by_cases hj : joinHyphen ((findRuns (text.data.flatMap pyLower) []).take mw) = []
  · have hslug : slugify text mw = "file" := by
      simp only [slugify]
      rw [if_pos hj]
    refine ⟨by rw [hslug]; decide, by rw [hslug]; decide, ?_, fun _ => hslug, hkelvin⟩
    rw [hslug]
    have h1 : (findRuns ("file" : String).data []).length = 1 := by decide
    omega
  · have hslug : slugify text mw =
        String.mk (joinHyphen ((findRuns (text.data.flatMap pyLower) []).take mw)) := by
      simp only [slugify]
      rw [if_neg hj]
    refine ⟨?_, ?_, ?_, ?_, hkelvin⟩
    · rw [hslug]
      intro h
      exact hj (congrArg String.data h)
    · rw [hslug]
      intro c hc
      rcases joinHyphen_chars _ c hc with ⟨w, hw, hcw⟩ | rfl
      · have halnum : isAsciiAlnum c = true :=
          findRuns_chars_alnum (text.data.flatMap pyLower) [] (by intro x hx; cases hx)
            w (List.mem_of_mem_take hw) c hcw
        have hmem : c ∈ text.data.flatMap pyLower :=
          (findRuns_chars_mem (text.data.flatMap pyLower) [] w
            (List.mem_of_mem_take hw) c hcw).resolve_right (by intro h; cases h)
        obtain ⟨d, _, hcd⟩ := List.mem_flatMap.mp hmem
        exact pyLower_slug d c hcd halnum
      · decide
    · rw [hslug]
      have hrt : findRuns
          (joinHyphen ((findRuns (text.data.flatMap pyLower) []).take mw)) [] =
          (findRuns (text.data.flatMap pyLower) []).take mw :=
        findRuns_joinHyphen _
          (fun u hu => findRuns_ne_nil _ _ u (List.mem_of_mem_take hu))
          (fun u hu => findRuns_chars_alnum _ [] (by intro x hx; cases hx)
            u (List.mem_of_mem_take hu))
      have hdata :
          (String.mk (joinHyphen ((findRuns (text.data.flatMap pyLower) []).take mw))).data
          = joinHyphen ((findRuns (text.data.flatMap pyLower) []).take mw) := rfl
      rw [hdata, hrt, List.length_take]
      exact Nat.min_le_left _ _
    · intro hno
      exfalso
      apply hj
      have hid : text.data.flatMap pyLower = text.data :=
        flatMap_pyLower_eq_self text.data
          (fun c hc => pyLower_eq_self (hno c hc).1 (hno c hc).2.1 (hno c hc).2.2)
      rw [hid, findRuns_nil_of_no_alnum _ (fun c hc => (hno c hc).1), List.take_nil]
      rfl

/-- C10 counterexample: the "only if" direction of the claim is false on the
code — `slugify "file" = "file"` although the input `"file"` does contain
ASCII alphanumeric characters. -/
theorem C10_slugify_counterexample :
    slugify "file" 6 = "file" ∧ ¬ (∀ c ∈ ("file" : String).data, isAsciiAlnum c = false) := by
  constructor
  · decide
  · decide

/-- Witness for C10 at concrete inputs: a mixed text yields a nonempty slug,
and an input with no alphanumeric characters yields `"file"`. -/
theorem C10_slugify_props_witness :
    slugify "Hello, World! 2024" 6 ≠ "" ∧ slugify "!!!" 6 = "file" :=
  ⟨(C10_slugify_props "Hello, World! 2024" 6 (by decide)).1,
   (C10_slugify_props "!!!" 6 (by decide)).2.2.2.1 (by decide)⟩
